import Mathlib

/-!
Shallow embedding of the ROHF SCF solver (src/lib/libscf_solver/rohf.cc)
and proofs of the specification claims about it.

Matrices blocked by irreducible representation are embedded as functions
`Nat → Nat → Nat → ℚ` (irrep, row, column); packed supermatrix vectors as
functions `Nat → ℚ`.  Machine doubles are embedded as rationals: the
algorithms only add, subtract and multiply by the exact constants
2, 1/2 and 1/4, so every quantity the claims speak about is exact.
-/

namespace scf

/-- The `ioff` triangle-offset table of libciomr: `ioff[0] = 0`,
`ioff[i] = ioff[i-1] + i`, so `ioff n = n*(n+1)/2`. -/
def ioff : Nat → Nat
  | 0 => 0
  | n + 1 => ioff n + (n + 1)

/-- The `INDEX2(i,j)` macro: `i >= j ? ioff[i] + j : ioff[j] + i`,
the packed storage index of the unordered pair `{i, j}`. -/
def INDEX2 (i j : Nat) : Nat :=
  if j ≤ i then ioff i + j else ioff j + i

/-- Store `x` at position `i` of a packed vector (an array write). -/
def setAt (v : Nat → ℚ) (i : Nat) (x : ℚ) : Nat → ℚ :=
  fun m => if m = i then x else v m

/-- Add `x` into position `i` of a packed vector (a `+=` array update). -/
def addAt (v : Nat → ℚ) (i : Nat) (x : ℚ) : Nat → ℚ :=
  fun m => if m = i then v m + x else v m

/-- The all-zero packed vector (`memset(..., 0, ...)`). -/
def zeroF : Nat → ℚ := fun _ => 0

/-- The all-zero matrix block (`Matrix::zero()`). -/
def zeroMat : Nat → Nat → ℚ := fun _ _ => 0

/-- The symmetric pair of writes `M.set(h,i,j,v); M.set(h,j,i,v)` on one
irrep block. -/
def setSym (M : Nat → Nat → ℚ) (i j : Nat) (x : ℚ) : Nat → Nat → ℚ :=
  fun a b => if a = i ∧ b = j then x else if a = j ∧ b = i then x else M a b

/-- The accumulation loop `for (m = a; m < a + n; ++m) val += f(m);`
transcribed as a structural recursion on the trip count `n`. -/
def loopSum (f : Nat → ℚ) (a : Nat) : Nat → ℚ
  | 0 => 0
  | n + 1 => loopSum f a n + f (a + n)

/-- `ROHF::form_D`, closed-shell part: for every irrep `h` the code loops
`for (m = 0; m < doccpi_[h]; ++m) val += C(h,i,m) * C(h,j,m);` and stores
`val` into `Dc_(h,i,j)`. -/
def form_D_Dc (C : Nat → Nat → Nat → ℚ) (doccpi : Nat → Nat) :
    Nat → Nat → Nat → ℚ :=
  fun h p q => loopSum (fun m => C h p m * C h q m) 0 (doccpi h)

/-- `ROHF::form_D`, open-shell part: the code loops
`for (m = doccpi_[h]; m < doccpi_[h] + soccpi_[h]; ++m)` accumulating
`C(h,i,m) * C(h,j,m)` into `Do_(h,i,j)`. -/
def form_D_Do (C : Nat → Nat → Nat → ℚ) (doccpi soccpi : Nat → Nat) :
    Nat → Nat → Nat → ℚ :=
  fun h p q => loopSum (fun m => C h p m * C h q m) (doccpi h) (soccpi h)

/-- Inner loop of `ROHF::form_F` writing the closed×open coupling block of
one irrep: for `j = 0 .. doccpi-1` it stores `val = 2*(Fct(i,j) - Fot(i,j))`
symmetrically at `(i,j)` and `(j,i)`. -/
def formF_rowClosed (Fct Fot : Nat → Nat → ℚ) (i : Nat) :
    Nat → (Nat → Nat → ℚ) → (Nat → Nat → ℚ)
  | 0, M => M
  | jc + 1, M =>
      setSym (formF_rowClosed Fct Fot i jc M) i jc
        (2 * (Fct i jc - Fot i jc))

/-- Inner loop of `ROHF::form_F` writing the open×virtual coupling block:
for `j = doccpi+soccpi .. opi-1` (here `j = a + jc`) it stores
`val = 2*Fot(i,j)` symmetrically. -/
def formF_rowVirt (Fot : Nat → Nat → ℚ) (i a : Nat) :
    Nat → (Nat → Nat → ℚ) → (Nat → Nat → ℚ)
  | 0, M => M
  | jc + 1, M =>
      setSym (formF_rowVirt Fot i a jc M) i (a + jc) (2 * Fot i (a + jc))

/-- Inner loop of `ROHF::form_F` writing the open×open portion:
for `j = doccpi .. doccpi+soccpi-1` (here `j = a + jc`) it stores
`val = Fot(i,j)` symmetrically. -/
def formF_rowOpen (Fot : Nat → Nat → ℚ) (i a : Nat) :
    Nat → (Nat → Nat → ℚ) → (Nat → Nat → ℚ)
  | 0, M => M
  | jc + 1, M =>
      setSym (formF_rowOpen Fot i a jc M) i (a + jc) (Fot i (a + jc))

/-- One iteration `i` of the open-orbital assembly loop of `form_F`:
the three inner loops in source order (closed×open, open×virtual,
open×open). -/
def formF_openStep (Fct Fot : Nat → Nat → ℚ) (docc socc n i : Nat)
    (M : Nat → Nat → ℚ) : Nat → Nat → ℚ :=
  formF_rowOpen Fot i docc socc
    (formF_rowVirt Fot i (docc + socc) (n - (docc + socc))
      (formF_rowClosed Fct Fot i docc M))

/-- The `for (i = doccpi_[h]; i < doccpi_[h] + soccpi_[h]; ++i)` loop of
`form_F` on one irrep block, counted by how many open orbitals have been
processed (`i = docc + ic`). -/
def formF_openLoop (Fct Fot : Nat → Nat → ℚ) (docc socc n : Nat) :
    Nat → (Nat → Nat → ℚ) → (Nat → Nat → ℚ)
  | 0, M => M
  | ic + 1, M =>
      formF_openStep Fct Fot docc socc n (docc + ic)
        (formF_openLoop Fct Fot docc socc n ic M)

/-- `ROHF::form_F` effective-Fock assembly: `Feff` starts as a copy of the
MO-basis closed Fock `Fct` (`Feff_->copy(Fct)`) and every irrep block
`h < nirreps` is then rewritten by the open-orbital loop.  Blocks are
independent, so the `h` loop is embedded pointwise in `h`. -/
def form_F_Feff (Fct Fot : Nat → Nat → Nat → ℚ)
    (doccpi soccpi opi : Nat → Nat) (nirreps : Nat) :
    Nat → Nat → Nat → ℚ :=
  fun h =>
    if h < nirreps then
      formF_openLoop (Fct h) (Fot h) (doccpi h) (soccpi h) (opi h)
        (soccpi h) (Fct h)
    else Fct h

/-- One two-electron integral record `(i,j,k,l,value)` of the IWL stream. -/
structure TEIRec where
  i : Nat
  j : Nat
  k : Nat
  l : Nat
  value : ℚ

/-- Processing of a single integral record inside `ROHF::form_PK`:
the Coulomb deposit under the pairing `(ij|kl)` with, nested inside it,
the second-sort exchange deposit under `(il|jk)`, followed by the
first-sort exchange deposit under `(ik|jl)`.  `so2symblk`/`so2index` map
absolute SO indices to irrep and local index; `pk_symoffset` is the
per-irrep pair offset table. -/
def processRecord (so2symblk so2index pk_symoffset : Nat → Nat)
    (r : TEIRec) (st : (Nat → ℚ) × (Nat → ℚ)) : (Nat → ℚ) × (Nat → ℚ) :=
  let is := so2symblk r.i
  let js := so2symblk r.j
  let ks := so2symblk r.k
  let ls := so2symblk r.l
  let ii := so2index r.i
  let jj := so2index r.j
  let kk := so2index r.k
  let ll := so2index r.l
  let st1 :=
    if is = js ∧ ks = ls then
      let braket := INDEX2 (INDEX2 ii jj + pk_symoffset is)
        (INDEX2 kk ll + pk_symoffset ks)
      let pk1 := addAt st.1 braket r.value
      if (¬ ii = jj) ∧ (¬ kk = ll) ∧ is = ls ∧ js = ks then
        let braket2 := INDEX2 (INDEX2 ii ll + pk_symoffset is)
          (INDEX2 jj kk + pk_symoffset js)
        let w := if ii = ll ∨ jj = kk then (1 : ℚ)/2 else 1/4
        (addAt pk1 braket2 (-(w * r.value)),
         addAt st.2 braket2 (-(w * r.value)))
      else (pk1, st.2)
    else st
  if is = ks ∧ js = ls then
    let braket := INDEX2 (INDEX2 ii kk + pk_symoffset is)
      (INDEX2 jj ll + pk_symoffset js)
    let w := if ii = kk ∨ jj = ll then (1 : ℚ)/2 else 1/4
    (addAt st1.1 braket (-(w * r.value)),
     addAt st1.2 braket (-(w * r.value)))
  else st1

/-- The final pass of `form_PK`:
`for (ij = 0; ij < pk_pairs_; ++ij) pk_[INDEX2(ij,ij)] *= 0.5;`,
counted by how many diagonal pair entries have been halved. -/
def halveDiagAux (v : Nat → ℚ) : Nat → Nat → ℚ
  | 0 => v
  | t + 1 =>
      let v2 := halveDiagAux v t
      setAt v2 (INDEX2 t t) (v2 (INDEX2 t t) * (1/2))

/-- `ROHF::form_PK`: fold the integral stream through `processRecord`
starting from the current `pk_`/`k_` arrays, then halve every diagonal
pair-of-pairs entry of both PK and K. -/
def form_PK (so2symblk so2index pk_symoffset : Nat → Nat)
    (stream : List TEIRec) (pk_pairs : Nat)
    (st : (Nat → ℚ) × (Nat → ℚ)) : (Nat → ℚ) × (Nat → ℚ) :=
  let acc := stream.foldl
    (fun s r => processRecord so2symblk so2index pk_symoffset r s) st
  (halveDiagAux acc.1 pk_pairs, halveDiagAux acc.2 pk_pairs)

/-- The `form_PK` call sites at the start of `ROHF::compute_energy`:
`if (scf_type_ == "PK") form_PK(); else if (scf_type_ == "DF") form_B();`
followed immediately by a second `if (scf_type_ == "PK") form_PK();`,
starting from the zeroed arrays produced by `allocate_PK` (`form_B` does
not touch `pk_`/`k_`, and each call re-reads the same integral file). -/
def pkAfterDriverInit (so2symblk so2index pk_symoffset : Nat → Nat)
    (stream : List TEIRec) (pk_pairs : Nat) (scf_type : String) :
    (Nat → ℚ) × (Nat → ℚ) :=
  let st0 := (zeroF, zeroF)
  let st1 := if scf_type = "PK" then
      form_PK so2symblk so2index pk_symoffset stream pk_pairs st0
    else st0
  if scf_type = "PK" then
    form_PK so2symblk so2index pk_symoffset stream pk_pairs st1
  else st1

/-- Number of `form_PK()` invocations executed by the two consecutive
`if (scf_type_ == "PK") form_PK();` statements at the start of
`ROHF::compute_energy`. -/
def formPK_invocations (scf_type : String) : Nat :=
  (if scf_type = "PK" then 1 else 0) + (if scf_type = "PK" then 1 else 0)

/-- `ROHF::test_convergency`: `ediff = E_ - Eold_;` then
`return fabs(ediff) < energy_threshold_ ? true : false`. -/
def test_convergency (E Eold energy_threshold : ℚ) : Bool :=
  if abs (E - Eold) < energy_threshold then true else false

/-- The `do { iter++; ... } while (!converged && iter < maxiter_)` loop of
`ROHF::compute_energy`, abstracted over the per-iteration convergence
outcome `conv it` (the value `test_convergency()` returns at the end of
iteration `it`).  Returns the executed iteration count and the final
`converged` flag.  The fuel argument only bounds the structural recursion;
the loop exits through its own condition whenever the fuel is at least
`maxiter - iter`. -/
def scfLoopFrom (conv : Nat → Bool) (maxiter : Nat) : Nat → Nat → Nat × Bool
  | iter, 0 => (iter + 1, conv (iter + 1))
  | iter, fuel + 1 =>
      let it := iter + 1
      if conv it then (it, true)
      else if it < maxiter then scfLoopFrom conv maxiter it fuel
      else (it, false)

/-- The iteration loop of `ROHF::compute_energy`, started at `iter = 0`
with enough fuel. -/
def scfLoop (conv : Nat → Bool) (maxiter : Nat) : Nat × Bool :=
  scfLoopFrom conv maxiter 0 maxiter

/-- Observable outcome of `ROHF::compute_energy`: the returned energy, the
final convergence flag, the number of executed iterations, and whether
`save_information()` was called. -/
structure SCFOutcome where
  energy : ℚ
  converged : Bool
  iterations : Nat
  saved : Bool

/-- Tail of `ROHF::compute_energy`: run the iteration loop, then
`if (converged) { save_information(); return E_; } else { return 0.0; }`.
`Esq n` is the total energy `E_` computed during iteration `n` (`Esq 0` is
the initial energy), so the convergence test of iteration `n` compares
`Esq n` against `Esq (n-1)` at threshold `t`. -/
def compute_energy (Esq : Nat → ℚ) (t : ℚ) (maxiter : Nat) : SCFOutcome :=
  let r := scfLoop (fun n => test_convergency (Esq n) (Esq (n - 1)) t) maxiter
  if r.2 then
    { energy := Esq r.1, converged := true, iterations := r.1, saved := true }
  else
    { energy := 0, converged := false, iterations := r.1, saved := false }

/-- A DIIS history entry: an (error vector, Fock snapshot) pair, as set up
by `save_fock` (`set_error_vector_size(.., Matrix, Feff)` and
`set_vector_size(.., Matrix, Feff)`). -/
def DIISEntry : Type := (Nat → Nat → ℚ) × (Nat → Nat → ℚ)

/-- Modelled from the spec: the DIISManager implementation (libdiis) is
not among the sources, only its construction with capacity
`max_diis_vectors_` in `save_fock` and the `extrapolate` call in `diis`.
Per the spec the history is a bounded FIFO: an append keeps the whole
history while below capacity and otherwise evicts the oldest (front)
entry. -/
def diisPush (cap : Nat) (hist : List DIISEntry) (e : DIISEntry) :
    List DIISEntry :=
  if hist.length < cap then hist ++ [e] else hist.drop 1 ++ [e]

/-- Modelled from the spec: the DIIS history after appending the entries
`es` (one per extrapolation-eligible iteration, in order) to an initially
empty history. -/
def diisHistory (cap : Nat) (es : List DIISEntry) : List DIISEntry :=
  es.foldl (diisPush cap) []

/-- Number of symmetry-allowed pairs in irreps `0 .. h-1`: the packed
pair-vector offset of irrep block `h` (`ioff[_opi[0]] + ioff[_opi[1]] +
...` as described in `allocate_PK`). -/
def blockPairOffset (opi : Nat → Nat) : Nat → Nat
  | 0 => 0
  | h + 1 => blockPairOffset opi h + ioff (opi h)

/-- Position of the in-block pair `(p,q)`, `q ≤ p`, of irrep `h` in the
packed pair vectors: the value the running counter `ij` has when the
triple loop `for h, for p < opi[h], for q <= p` reaches `(h,p,q)`. -/
def pairIdx (opi : Nat → Nat) (h p q : Nat) : Nat :=
  blockPairOffset opi h + ioff p + q

/-- Innermost packing loop of `form_G_from_PK` over `q = 0 .. cnt-1` of
row `p` (positions `base + q`):
`D_vector[ij] = (p != q) ? 2*D(h,p,q) : D(h,p,q); ij++;`. -/
def packRow (Dh : Nat → Nat → ℚ) (p : Nat) :
    Nat → (Nat → ℚ) → Nat → (Nat → ℚ)
  | 0, v, _ => v
  | qc + 1, v, base =>
      setAt (packRow Dh p qc v base) (base + qc)
        (if ¬ p = qc then 2 * Dh p qc else Dh p qc)

/-- Packing loop of `form_G_from_PK` over the rows `p = 0 .. pcnt-1` of
one irrep block, each row written at `base + ioff p`. -/
def packBlock (Dh : Nat → Nat → ℚ) :
    Nat → (Nat → ℚ) → Nat → (Nat → ℚ)
  | 0, v, _ => v
  | pc + 1, v, base =>
      packRow Dh pc (pc + 1) (packBlock Dh pc v base) (base + ioff pc)

/-- Packing loop of `form_G_from_PK` over the irrep blocks
`h = 0 .. hcnt-1`. -/
def packAll (D : Nat → Nat → Nat → ℚ) (opi : Nat → Nat) :
    Nat → (Nat → ℚ) → (Nat → ℚ)
  | 0, v => v
  | hc + 1, v =>
      packBlock (D hc) (opi hc) (packAll D opi hc v) (blockPairOffset opi hc)

/-- Packed lower-triangle pair vector of a density matrix, as built by the
first loop nest of `form_G_from_PK` into a zero-initialized buffer. -/
def packVec (D : Nat → Nat → Nat → ℚ) (opi : Nat → Nat)
    (nirreps : Nat) : Nat → ℚ :=
  packAll D opi nirreps zeroF

/-- State of the triangular contraction sweep of `form_G_from_PK`: the
`Gc_vector`/`Go_vector` accumulators and the running row sums
`Gc_pq`/`Go_pq`. -/
structure SweepSt where
  gc : Nat → ℚ
  go : Nat → ℚ
  gcp : ℚ
  gop : ℚ

/-- One step (pair `rs` of row `pq`) of the contraction sweep; the packed
supermatrix pointers sit at element `ioff pq + rs`:
`Gc_pq += PK*Dc_rs; Gc_rs += PK*Dc_pq; Gc_pq += PK*Do_rs*0.5;
Gc_rs += PK*Do_pq*0.5; Go_pq += PK*Dc_rs*0.5; Go_rs += PK*Dc_pq*0.5;
Go_pq += (PK+K)*Do_rs*0.25; Go_rs += (PK+K)*Do_pq*0.25;`. -/
def sweepStep (pk ka DcV DoV : Nat → ℚ) (pq rs : Nat)
    (st : SweepSt) : SweepSt :=
  let pkv := pk (ioff pq + rs)
  let kv := ka (ioff pq + rs)
  { gc := addAt st.gc rs (pkv * DcV pq + pkv * DoV pq * (1/2)),
    go := addAt st.go rs
      (pkv * DcV pq * (1/2) + (pkv + kv) * DoV pq * (1/4)),
    gcp := st.gcp + pkv * DcV rs + pkv * DoV rs * (1/2),
    gop := st.gop + pkv * DcV rs * (1/2) + (pkv + kv) * DoV rs * (1/4) }

/-- Inner loop `for (rs = 0; rs <= pq; ++rs)` of the contraction sweep,
counted by the number of processed `rs` values. -/
def sweepInner (pk ka DcV DoV : Nat → ℚ) (pq : Nat) :
    Nat → SweepSt → SweepSt
  | 0, st => st
  | rc + 1, st =>
      sweepStep pk ka DcV DoV pq rc (sweepInner pk ka DcV DoV pq rc st)

/-- One full row `pq` of the contraction sweep: run the inner loop with
fresh `Gc_pq = Go_pq = 0`, then `Gc_vector[pq] += Gc_pq;
Go_vector[pq] += Go_pq;`. -/
def sweepRow (pk ka DcV DoV : Nat → ℚ) (pq : Nat)
    (G : (Nat → ℚ) × (Nat → ℚ)) : (Nat → ℚ) × (Nat → ℚ) :=
  let st := sweepInner pk ka DcV DoV pq (pq + 1) ⟨G.1, G.2, 0, 0⟩
  (addAt st.gc pq st.gcp, addAt st.go pq st.gop)

/-- The whole triangular sweep `for (pq = 0; pq < ts_pairs; ++pq)` over
zero-initialized `Gc_vector`/`Go_vector`. -/
def sweepAll (pk ka DcV DoV : Nat → ℚ) : Nat → (Nat → ℚ) × (Nat → ℚ)
  | 0 => (zeroF, zeroF)
  | pc + 1 => sweepRow pk ka DcV DoV pc (sweepAll pk ka DcV DoV pc)

/-- Innermost unpacking loop of `form_G_from_PK` over `q = 0 .. cnt-1` of
row `p`: `G->set(h,p,q, 2*G_vector[ij]); G->set(h,q,p, 2*G_vector[ij]);
ij++;`. -/
def unpackRow (v : Nat → ℚ) (p : Nat) :
    Nat → (Nat → Nat → ℚ) → Nat → (Nat → Nat → ℚ)
  | 0, M, _ => M
  | qc + 1, M, base =>
      setSym (unpackRow v p qc M base) p qc (2 * v (base + qc))

/-- Unpacking loop of `form_G_from_PK` over the rows of one irrep
block. -/
def unpackBlock (v : Nat → ℚ) :
    Nat → (Nat → Nat → ℚ) → Nat → (Nat → Nat → ℚ)
  | 0, M, _ => M
  | pc + 1, M, base =>
      unpackRow v pc (pc + 1) (unpackBlock v pc M base) (base + ioff pc)

/-- Unpacking of a packed pair vector into a symmetry-blocked matrix,
starting from the zeroed matrix (`Gc_->zero()`); the irrep blocks are
independent, so the `h` loop is embedded pointwise in `h`. -/
def unpackMat (v : Nat → ℚ) (opi : Nat → Nat) (nirreps : Nat) :
    Nat → Nat → Nat → ℚ :=
  fun h =>
    if h < nirreps then
      unpackBlock v (opi h) zeroMat (blockPairOffset opi h)
    else zeroMat

/-- `ROHF::form_G_from_PK`: pack `Dc_`/`Do_` into lower-triangle pair
vectors, run the triangular contraction sweep against `pk_`/`k_`, and
unpack the accumulated `Gc_vector`/`Go_vector` into the symmetry-blocked
`Gc_`/`Go_` with the factor of 2. -/
def form_G_from_PK (pk ka : Nat → ℚ) (Dc Do : Nat → Nat → Nat → ℚ)
    (opi : Nat → Nat) (nirreps : Nat) :
    (Nat → Nat → Nat → ℚ) × (Nat → Nat → Nat → ℚ) :=
  let n := blockPairOffset opi nirreps
  let DcV := packVec Dc opi nirreps
  let DoV := packVec Do opi nirreps
  let G := sweepAll pk ka DcV DoV n
  (unpackMat G.1 opi nirreps, unpackMat G.2 opi nirreps)

/-- Per-element closed-shell contribution of the sweep: what one
supermatrix element `pk e` contributes against density entry `s`. -/
def elemC (pk DcV DoV : Nat → ℚ) (e s : Nat) : ℚ :=
  pk e * DcV s + pk e * DoV s * (1/2)

/-- Per-element open-shell contribution of the sweep. -/
def elemO (pk ka DcV DoV : Nat → ℚ) (e s : Nat) : ℚ :=
  pk e * DcV s * (1/2) + (pk e + ka e) * DoV s * (1/4)

end scf

namespace scf

theorem loopSum_eq_sum (f : Nat → ℚ) (a : Nat) :
    ∀ n, loopSum f a n = Finset.sum (Finset.Ico a (a + n)) f := by
  intro n
  induction n with
  | zero => simp [loopSum]
  | succ n ih =>
      rw [loopSum, ih,
        show a + (n + 1) = (a + n) + 1 from rfl,
        Finset.sum_Ico_succ_top (Nat.le_add_right a n)]

/-- C6: after `form_D` the closed density satisfies
`Dc[h][p][q] = Σ_{m < doccpi[h]} C[h][p][m]·C[h][q][m]` and the open density
satisfies `Do[h][p][q] = Σ_{doccpi[h] ≤ m < doccpi[h]+soccpi[h]}
C[h][p][m]·C[h][q][m]`, as pure functions of the coefficients and the
occupation vectors. -/
theorem form_D_density_formula (C : Nat → Nat → Nat → ℚ)
    (doccpi soccpi : Nat → Nat) (h p q : Nat) :
    form_D_Dc C doccpi h p q =
      Finset.sum (Finset.range (doccpi h)) (fun m => C h p m * C h q m) ∧
    form_D_Do C doccpi soccpi h p q =
      Finset.sum (Finset.Ico (doccpi h) (doccpi h + soccpi h))
        (fun m => C h p m * C h q m) := by
  constructor
  · rw [form_D_Dc, loopSum_eq_sum, Finset.range_eq_Ico, Nat.zero_add]
  · rw [form_D_Do, loopSum_eq_sum]

/-- C7: when `soccpi[h] = 0` for every irrep, the open-orbital loop of
`form_F` is empty and the assembled `Feff` equals the MO-basis closed Fock
`Fct` exactly (closed-shell limit). -/
theorem form_F_closed_shell_limit (Fct Fot : Nat → Nat → Nat → ℚ)
    (doccpi soccpi opi : Nat → Nat) (nirreps : Nat)
    (hs : ∀ h, soccpi h = 0) (h i j : Nat) :
    form_F_Feff Fct Fot doccpi soccpi opi nirreps h i j = Fct h i j := by
  unfold form_F_Feff
  by_cases hh : h < nirreps
  · simp [hh, hs h, formF_openLoop]
  · simp [hh]

/-- Witness for C7 at a concrete input: one irrep of dimension 1 with
`soccpi = 0`, `Fct` constantly 5, `Fot` constantly 7. -/
theorem form_F_closed_shell_limit_witness :
    (∀ h : Nat, (fun _ : Nat => 0) h = 0) ∧
    form_F_Feff (fun _ _ _ => (5 : ℚ)) (fun _ _ _ => (7 : ℚ))
      (fun _ => 0) (fun _ => 0) (fun _ => 1) 1 0 0 0 = 5 :=
  ⟨fun _ => rfl,
   form_F_closed_shell_limit (fun _ _ _ => (5 : ℚ)) (fun _ _ _ => (7 : ℚ))
     (fun _ => 0) (fun _ => 0) (fun _ => 1) 1 (fun _ => rfl) 0 0 0⟩

/-- C1 (code bug evidence): with one irrep, `doccpi = 0`, `soccpi = 1`,
block dimension 1, MO-basis `Fct` constantly 5 and `Fot` constantly 7, the
assembled `Feff` has `Feff(0,0) = 7`, the value of the open Fock `Fo`, not
the value 5 of the closed Fock `Fc` promised by the claim and by the
code's own structure comment (the open×open portion is written from
`Fot->get`). -/
theorem form_F_open_open_block_is_Fo :
    form_F_Feff (fun _ _ _ => (5 : ℚ)) (fun _ _ _ => (7 : ℚ))
      (fun _ => 0) (fun _ => 1) (fun _ => 1) 1 0 0 0 = 7 ∧
    ((7 : ℚ) ≠ 5) := by
  constructor
  · decide
  · decide

theorem ioff_mono {a b : Nat} (hab : a ≤ b) : ioff a ≤ ioff b := by
  induction hab with
  | refl => exact Nat.le_refl _
  | step _ ih => exact Nat.le_trans ih (Nat.le_add_right _ _)

theorem index2_repr_inj {a b c d : Nat} (hb : b ≤ a) (hd : d ≤ c)
    (heq : ioff a + b = ioff c + d) : a = c ∧ b = d := by
  rcases Nat.lt_trichotomy a c with hlt | he | hgt
  · have h1 : ioff (a + 1) ≤ ioff c := ioff_mono hlt
    have h2 : ioff (a + 1) = ioff a + (a + 1) := rfl
    omega
  · subst he
    omega
  · have h1 : ioff (c + 1) ≤ ioff a := ioff_mono hgt
    have h2 : ioff (c + 1) = ioff c + (c + 1) := rfl
    omega

theorem index2_diag_inj {t s : Nat} (h : INDEX2 t t = INDEX2 s s) :
    t = s := by
  unfold INDEX2 at h
  simp only [Nat.le_refl, if_pos] at h
  exact (index2_repr_inj (Nat.le_refl t) (Nat.le_refl s) h).1

theorem index2_offdiag_ne_diag {a b s : Nat} (hba : b < a) :
    INDEX2 a b ≠ INDEX2 s s := by
  unfold INDEX2
  simp only [Nat.le_of_lt hba, Nat.le_refl, if_pos]
  intro heq
  have h2 := index2_repr_inj (Nat.le_of_lt hba) (Nat.le_refl s) heq
  omega

theorem halveDiag_diag_untouched (v : Nat → ℚ) :
    ∀ n t, n ≤ t → halveDiagAux v n (INDEX2 t t) = v (INDEX2 t t) := by
  intro n
  induction n with
  | zero => intro t _; rfl
  | succ n ih =>
      intro t ht
      have hne : INDEX2 t t ≠ INDEX2 n n := by
        intro h
        have := index2_diag_inj h
        omega
      simp only [halveDiagAux, setAt, hne, if_neg, if_false]
      exact ih t (Nat.le_of_succ_le ht)

theorem halveDiag_offdiag (v : Nat → ℚ) {a b : Nat} (hba : b < a) :
    ∀ n, halveDiagAux v n (INDEX2 a b) = v (INDEX2 a b) := by
  intro n
  induction n with
  | zero => rfl
  | succ n ih =>
      have hne := index2_offdiag_ne_diag (s := n) hba
      simp only [halveDiagAux, setAt, hne, if_neg, if_false]
      exact ih

theorem halveDiag_diag (v : Nat → ℚ) :
    ∀ n t, t < n →
      halveDiagAux v n (INDEX2 t t) = v (INDEX2 t t) * (1/2) := by
  intro n
  induction n with
  | zero => intro t ht; omega
  | succ n ih =>
      intro t ht
      by_cases hc : t = n
      · subst hc
        simp only [halveDiagAux, setAt]
        rw [if_true, halveDiag_diag_untouched v t t (Nat.le_refl t)]
      · have hne : INDEX2 t t ≠ INDEX2 n n := by
          intro h
          exact hc (index2_diag_inj h)
        simp only [halveDiagAux, setAt, hne, if_neg, if_false]
        exact ih t (by omega)

/-- C8: the final pass of `form_PK` multiplies every diagonal pair-of-pairs
entry `INDEX2(t,t)`, `t < pk_pairs`, of both PK and K by `0.5` exactly
once, and leaves every off-diagonal pair-of-pairs entry `INDEX2(a,b)`,
`b < a`, unchanged relative to the state accumulated from the integral
stream. -/
theorem form_PK_final_halving (so2symblk so2index pk_symoffset : Nat → Nat)
    (stream : List TEIRec) (st : (Nat → ℚ) × (Nat → ℚ)) (n t a b : Nat)
    (ht : t < n) (hba : b < a) :
    (form_PK so2symblk so2index pk_symoffset stream n st).1 (INDEX2 t t) =
      (stream.foldl
        (fun s r => processRecord so2symblk so2index pk_symoffset r s)
        st).1 (INDEX2 t t) * (1/2) ∧
    (form_PK so2symblk so2index pk_symoffset stream n st).2 (INDEX2 t t) =
      (stream.foldl
        (fun s r => processRecord so2symblk so2index pk_symoffset r s)
        st).2 (INDEX2 t t) * (1/2) ∧
    (form_PK so2symblk so2index pk_symoffset stream n st).1 (INDEX2 a b) =
      (stream.foldl
        (fun s r => processRecord so2symblk so2index pk_symoffset r s)
        st).1 (INDEX2 a b) ∧
    (form_PK so2symblk so2index pk_symoffset stream n st).2 (INDEX2 a b) =
      (stream.foldl
        (fun s r => processRecord so2symblk so2index pk_symoffset r s)
        st).2 (INDEX2 a b) := by
  refine ⟨?_, ?_, ?_, ?_⟩
  · exact halveDiag_diag _ n t ht
  · exact halveDiag_diag _ n t ht
  · exact halveDiag_offdiag _ hba n
  · exact halveDiag_offdiag _ hba n

/-- Witness for C8 at a concrete input: empty stream, two pairs,
diagonal entry `INDEX2(1,1)` halved and off-diagonal entry `INDEX2(1,0)`
untouched, starting from the constant-1 arrays. -/
theorem form_PK_final_halving_witness :
    (1 < 2 ∧ 0 < 1) ∧
    ((form_PK id id (fun _ => 0) [] 2 (fun _ => 1, fun _ => 1)).1
        (INDEX2 1 1) =
      (List.foldl (fun s r => processRecord id id (fun _ => 0) r s)
        ((fun _ => 1), (fun _ => 1)) []).1 (INDEX2 1 1) * (1/2) ∧
    (form_PK id id (fun _ => 0) [] 2 (fun _ => 1, fun _ => 1)).2
        (INDEX2 1 1) =
      (List.foldl (fun s r => processRecord id id (fun _ => 0) r s)
        ((fun _ => 1), (fun _ => 1)) []).2 (INDEX2 1 1) * (1/2) ∧
    (form_PK id id (fun _ => 0) [] 2 (fun _ => 1, fun _ => 1)).1
        (INDEX2 1 0) =
      (List.foldl (fun s r => processRecord id id (fun _ => 0) r s)
        ((fun _ => 1), (fun _ => 1)) []).1 (INDEX2 1 0) ∧
    (form_PK id id (fun _ => 0) [] 2 (fun _ => 1, fun _ => 1)).2
        (INDEX2 1 0) =
      (List.foldl (fun s r => processRecord id id (fun _ => 0) r s)
        ((fun _ => 1), (fun _ => 1)) []).2 (INDEX2 1 0)) :=
  ⟨⟨by decide, by decide⟩,
   form_PK_final_halving id id (fun _ => 0) [] (fun _ => 1, fun _ => 1)
     2 1 1 0 (by decide) (by decide)⟩

theorem ite_and_pos {α : Sort u_1} {p q : Prop} [Decidable p] [Decidable q]
    (hp : p) (a b : α) : (if p ∧ q then a else b) = if q then a else b := by
  by_cases hq : q <;> simp [hp, hq]

theorem ite_and_neg {α : Sort u_1} {p q : Prop} [Decidable p] [Decidable q]
    (hp : ¬ p) (a b : α) : (if p ∧ q then a else b) = b := by
  simp [hp]

set_option maxHeartbeats 1000000

/-- C4 (amended): for every integral record, one `processRecord` step
changes PK by the full-weight Coulomb deposit `+value` at the `(ij|kl)`
position when `irrep(i)=irrep(j)` and `irrep(k)=irrep(l)`; by the
second-sort exchange deposit at the `(il|jk)` position — executed only
when additionally `ii ≠ jj`, `kk ≠ ll`, `irrep(i)=irrep(l)`,
`irrep(j)=irrep(k)` — scaled by `1/2` exactly when `ii = ll` or `jj = kk`
(local indices) and by `1/4` otherwise; and by the first-sort exchange
deposit at the `(ik|jl)` position when `irrep(i)=irrep(k)` and
`irrep(j)=irrep(l)`, scaled by `1/2` exactly when `ii = kk` or `jj = ll`
and by `1/4` otherwise.  K receives exactly the two exchange deposits. -/
theorem processRecord_deposit_weights
    (so2symblk so2index pk_symoffset : Nat → Nat) (r : TEIRec)
    (pk ka : Nat → ℚ) (m : Nat)
    (is js ks ls ii jj kk ll : Nat)
    (his : is = so2symblk r.i) (hjs : js = so2symblk r.j)
    (hks : ks = so2symblk r.k) (hls : ls = so2symblk r.l)
    (hii : ii = so2index r.i) (hjj : jj = so2index r.j)
    (hkk : kk = so2index r.k) (hll : ll = so2index r.l) :
    (processRecord so2symblk so2index pk_symoffset r (pk, ka)).1 m =
      pk m
      + (if (is = js ∧ ks = ls) ∧
            m = INDEX2 (INDEX2 ii jj + pk_symoffset is)
              (INDEX2 kk ll + pk_symoffset ks)
         then r.value else 0)
      - (if (is = js ∧ ks = ls) ∧
            ((¬ ii = jj) ∧ (¬ kk = ll) ∧ is = ls ∧ js = ks) ∧
            m = INDEX2 (INDEX2 ii ll + pk_symoffset is)
              (INDEX2 jj kk + pk_symoffset js)
         then (if ii = ll ∨ jj = kk then (1 : ℚ)/2 else 1/4) * r.value
         else 0)
      - (if (is = ks ∧ js = ls) ∧
            m = INDEX2 (INDEX2 ii kk + pk_symoffset is)
              (INDEX2 jj ll + pk_symoffset js)
         then (if ii = kk ∨ jj = ll then (1 : ℚ)/2 else 1/4) * r.value
         else 0) ∧
    (processRecord so2symblk so2index pk_symoffset r (pk, ka)).2 m =
      ka m
      - (if (is = js ∧ ks = ls) ∧
            ((¬ ii = jj) ∧ (¬ kk = ll) ∧ is = ls ∧ js = ks) ∧
            m = INDEX2 (INDEX2 ii ll + pk_symoffset is)
              (INDEX2 jj kk + pk_symoffset js)
         then (if ii = ll ∨ jj = kk then (1 : ℚ)/2 else 1/4) * r.value
         else 0)
      - (if (is = ks ∧ js = ls) ∧
            m = INDEX2 (INDEX2 ii kk + pk_symoffset is)
              (INDEX2 jj ll + pk_symoffset js)
         then (if ii = kk ∨ jj = ll then (1 : ℚ)/2 else 1/4) * r.value
         else 0) := by
  subst his hjs hks hls hii hjj hkk hll
  by_cases h1 : so2symblk r.i = so2symblk r.j ∧ so2symblk r.k = so2symblk r.l
  · by_cases h2 : (¬ so2index r.i = so2index r.j) ∧ (¬ so2index r.k = so2index r.l) ∧
        so2symblk r.i = so2symblk r.l ∧ so2symblk r.j = so2symblk r.k
    · by_cases h3 : so2symblk r.i = so2symblk r.k ∧ so2symblk r.j = so2symblk r.l
      · refine ⟨?_, ?_⟩ <;>
          simp only [processRecord, addAt, if_pos h1, if_pos h2, if_pos h3,
            ite_and_pos h1, ite_and_pos h2, ite_and_pos h3] <;>
          (try split_ifs) <;> ring
      · refine ⟨?_, ?_⟩ <;>
          simp only [processRecord, addAt, if_pos h1, if_pos h2, if_neg h3,
            ite_and_pos h1, ite_and_pos h2, ite_and_neg h3] <;>
          (try split_ifs) <;> ring
    · by_cases h3 : so2symblk r.i = so2symblk r.k ∧ so2symblk r.j = so2symblk r.l
      · refine ⟨?_, ?_⟩ <;>
          simp only [processRecord, addAt, if_pos h1, if_neg h2, if_pos h3,
            ite_and_pos h1, ite_and_neg h2, ite_and_pos h3] <;>
          (try split_ifs) <;> ring
      · refine ⟨?_, ?_⟩ <;>
          simp only [processRecord, addAt, if_pos h1, if_neg h2, if_neg h3,
            ite_and_pos h1, ite_and_neg h2, ite_and_neg h3] <;>
          (try split_ifs) <;> ring
  · by_cases h3 : so2symblk r.i = so2symblk r.k ∧ so2symblk r.j = so2symblk r.l
    · refine ⟨?_, ?_⟩ <;>
        simp only [processRecord, addAt, if_neg h1, if_pos h3,
          ite_and_neg h1, ite_and_pos h3] <;>
        (try split_ifs) <;> ring
    · refine ⟨?_, ?_⟩ <;>
        simp only [processRecord, addAt, if_neg h1, if_neg h3,
          ite_and_neg h1, ite_and_neg h3] <;>
        (try split_ifs) <;> ring

/-- Witness for C4 at a concrete record: a single irrep (`so2symblk`
constantly 0, `so2index` the identity) and the record `(1,0,1,0,1)`
evaluated at position 3, where only the first-sort deposit with weight
`1/2` lands. -/
theorem processRecord_deposit_weights_witness :
    ((0 : Nat) = (fun _ : Nat => 0) 1 ∧ (1 : Nat) = id 1) ∧
    (processRecord (fun _ => 0) id (fun _ => 0) ⟨1, 0, 1, 0, 1⟩
        (zeroF, zeroF)).1 3 =
      zeroF 3
      + (if ((0 : Nat) = 0 ∧ (0 : Nat) = 0) ∧
            (3 : Nat) = INDEX2 (INDEX2 1 0 + 0) (INDEX2 1 0 + 0)
         then (1 : ℚ) else 0)
      - (if ((0 : Nat) = 0 ∧ (0 : Nat) = 0) ∧
            ((¬ (1 : Nat) = 0) ∧ (¬ (1 : Nat) = 0) ∧ (0 : Nat) = 0 ∧
              (0 : Nat) = 0) ∧
            (3 : Nat) = INDEX2 (INDEX2 1 0 + 0) (INDEX2 0 1 + 0)
         then (if (1 : Nat) = 0 ∨ (0 : Nat) = 1 then (1 : ℚ)/2 else 1/4) * 1
         else 0)
      - (if ((0 : Nat) = 0 ∧ (0 : Nat) = 0) ∧
            (3 : Nat) = INDEX2 (INDEX2 1 1 + 0) (INDEX2 0 0 + 0)
         then (if (1 : Nat) = 1 ∨ (0 : Nat) = 0 then (1 : ℚ)/2 else 1/4) * 1
         else 0) :=
  ⟨⟨rfl, rfl⟩,
   (processRecord_deposit_weights (fun _ => 0) id (fun _ => 0)
     ⟨1, 0, 1, 0, 1⟩ zeroF zeroF 3 0 0 0 0 1 0 1 0
     rfl rfl rfl rfl rfl rfl rfl rfl).1⟩

/-- C4 counterexample: for the record `(i,j,k,l) = (1,0,1,0)` with trivial
symmetry (identity maps, zero offsets) neither `i = j` nor `k = l`, yet
the exchange deposit under the pairing `(ik|jl)` lands in K (position 3)
with weight `1/2·value`, not the `1/4·value` the claim prescribes for this
case. -/
theorem processRecord_half_weight_counterexample :
    (processRecord (fun _ => 0) id (fun _ => 0) ⟨1, 0, 1, 0, 1⟩
        (zeroF, zeroF)).2 3 = -(1/2) ∧
    (¬ ((1 : Nat) = 0 ∨ (1 : Nat) = 0)) ∧ ((-(1/2) : ℚ) ≠ -(1/4)) := by
  refine ⟨?_, by decide, by norm_num⟩
  norm_num [processRecord, addAt, INDEX2, ioff, zeroF]

/-- C2 (code bug evidence): the driver initialization invokes `form_PK`
twice, and the second invocation corrupts the supermatrices: on the
single-record stream `(1,0,1,0,1)` with one irrep of dimension 2, the
diagonal pair-of-pairs entry `INDEX2(1,1) = 2` of PK ends at `9/16`,
whereas a single `form_PK` build gives `3/8`. -/
theorem form_PK_invoked_twice :
    formPK_invocations "PK" = 2 ∧
    (pkAfterDriverInit (fun _ => 0) id (fun _ => 0)
        [⟨1, 0, 1, 0, 1⟩] 3 "PK").1 2 = 9/16 ∧
    (form_PK (fun _ => 0) id (fun _ => 0) [⟨1, 0, 1, 0, 1⟩] 3
        (zeroF, zeroF)).1 2 = 3/8 ∧
    ((9/16 : ℚ) ≠ 3/8) := by
  refine ⟨by decide, ?_, ?_, by norm_num⟩
  · norm_num [pkAfterDriverInit, form_PK, halveDiagAux, processRecord,
      addAt, setAt, INDEX2, ioff, zeroF]
  · norm_num [form_PK, halveDiagAux, processRecord,
      addAt, setAt, INDEX2, ioff, zeroF]

theorem test_convergency_true_iff (E Eold t : ℚ) :
    test_convergency E Eold t = true ↔ abs (E - Eold) < t := by
  unfold test_convergency
  split_ifs with hc <;> simp [hc]

theorem scfLoopFrom_spec (conv : Nat → Bool) (maxiter : Nat) :
    ∀ fuel iter, iter + 1 ≤ maxiter → maxiter ≤ iter + 1 + fuel →
      (iter + 1 ≤ (scfLoopFrom conv maxiter iter fuel).1 ∧
        (scfLoopFrom conv maxiter iter fuel).1 ≤ maxiter) ∧
      ((scfLoopFrom conv maxiter iter fuel).2 = true →
        conv (scfLoopFrom conv maxiter iter fuel).1 = true) ∧
      ((scfLoopFrom conv maxiter iter fuel).2 = false →
        (scfLoopFrom conv maxiter iter fuel).1 = maxiter ∧
          conv maxiter = false) := by
  intro fuel
  induction fuel with
  | zero =>
      intro iter h1 h2
      have he : iter + 1 = maxiter := by omega
      simp only [scfLoopFrom]
      refine ⟨⟨Nat.le_refl _, by omega⟩, fun hb => hb, fun hb => ⟨he, ?_⟩⟩
      rw [← he]
      exact hb
  | succ fuel ih =>
      intro iter h1 h2
      simp only [scfLoopFrom]
      by_cases hc : conv (iter + 1) = true
      · rw [if_pos hc]
        exact ⟨⟨Nat.le_refl _, h1⟩, fun _ => hc, fun hb => by simp at hb⟩
      · have hcf : conv (iter + 1) = false := by
          exact Bool.not_eq_true _ ▸ Bool.eq_false_iff.mpr hc
        simp only [hcf, Bool.false_eq_true, if_false]
        by_cases hlt : iter + 1 < maxiter
        · simp only [if_pos hlt]
          have hrec := ih (iter + 1) (by omega) (by omega)
          exact ⟨⟨by omega, hrec.1.2⟩, hrec.2.1, hrec.2.2⟩
        · simp only [if_neg hlt]
          have he : iter + 1 = maxiter := by omega
          refine ⟨⟨Nat.le_refl _, by omega⟩, fun hb => by simp at hb,
            fun _ => ⟨he, ?_⟩⟩
          rw [← he]
          exact hcf

/-- C3 (amended): for every energy sequence, threshold `t` and iteration
cap `N ≥ 1`, `compute_energy` executes at most `N` iterations; when it
converges the last iteration satisfied `|E_n - E_(n-1)| < t`; when it does
not converge it executed exactly `N` iterations and returned the sentinel
energy `0.0` (the do-while body always runs at least once, so for `N = 0`
one iteration is executed — see the counterexample). -/
theorem compute_energy_iteration_cap (Esq : Nat → ℚ) (t : ℚ) (N : Nat)
    (hN : 1 ≤ N) :
    (compute_energy Esq t N).iterations ≤ N ∧
    ((compute_energy Esq t N).converged = true →
      abs (Esq (compute_energy Esq t N).iterations -
        Esq ((compute_energy Esq t N).iterations - 1)) < t) ∧
    ((compute_energy Esq t N).converged = false →
      (compute_energy Esq t N).iterations = N ∧
        (compute_energy Esq t N).energy = 0) := by
  have hspec := scfLoopFrom_spec
    (fun n => test_convergency (Esq n) (Esq (n - 1)) t) N N 0
    (by omega) (by omega)
  unfold compute_energy scfLoop
  by_cases hb :
      (scfLoopFrom (fun n => test_convergency (Esq n) (Esq (n - 1)) t)
        N 0 N).2 = true
  · simp only [hb, if_true]
    refine ⟨hspec.1.2, fun _ => ?_, fun hf => by simp at hf⟩
    have := hspec.2.1 hb
    exact (test_convergency_true_iff _ _ _).mp this
  · have hbf :
        (scfLoopFrom (fun n => test_convergency (Esq n) (Esq (n - 1)) t)
          N 0 N).2 = false := by
      exact Bool.eq_false_iff.mpr hb
    rw [if_neg (by simp [hbf])]
    exact ⟨hspec.1.2, fun hc => by simp at hc,
      fun _ => ⟨(hspec.2.2 hbf).1, rfl⟩⟩

/-- Witness for C3 (amended) at a concrete input: energies `Esq n = n`,
threshold 0, cap `N = 1`: the loop runs exactly one iteration, fails, and
returns the sentinel. -/
theorem compute_energy_iteration_cap_witness :
    1 ≤ 1 ∧
    ((compute_energy (fun n => (n : ℚ)) 0 1).iterations ≤ 1 ∧
    ((compute_energy (fun n => (n : ℚ)) 0 1).converged = true →
      abs (((compute_energy (fun n => (n : ℚ)) 0 1).iterations : ℚ) -
        (((compute_energy (fun n => (n : ℚ)) 0 1).iterations - 1 : Nat) : ℚ)) < 0) ∧
    ((compute_energy (fun n => (n : ℚ)) 0 1).converged = false →
      (compute_energy (fun n => (n : ℚ)) 0 1).iterations = 1 ∧
        (compute_energy (fun n => (n : ℚ)) 0 1).energy = 0)) :=
  ⟨Nat.le_refl 1, compute_energy_iteration_cap (fun n => (n : ℚ)) 0 1 (Nat.le_refl 1)⟩

/-- C3 counterexample: with `max_iterations = 0` the do-while body still
executes once, so the claim "never executes more than N iterations" fails
at `N = 0`: on the energies `Esq n = n` with threshold 0 the run fails
after one executed iteration. -/
theorem compute_energy_zero_cap_counterexample :
    (compute_energy (fun n => (n : ℚ)) 0 0).iterations = 1 ∧
    (compute_energy (fun n => (n : ℚ)) 0 0).converged = false ∧
    ¬ (compute_energy (fun n => (n : ℚ)) 0 0).iterations ≤ 0 := by
  refine ⟨?_, ?_, ?_⟩ <;>
    norm_num [compute_energy, scfLoop, scfLoopFrom, test_convergency]

/-- C10: `compute_energy` returns the sentinel energy `0.0` and does not
call `save_information` whenever the loop ends unconverged, and
`save_information` is called exactly when the run converged. -/
theorem compute_energy_save_iff_converged (Esq : Nat → ℚ) (t : ℚ)
    (N : Nat) :
    ((compute_energy Esq t N).converged = false →
      (compute_energy Esq t N).energy = 0 ∧
        (compute_energy Esq t N).saved = false) ∧
    ((compute_energy Esq t N).saved = true ↔
      (compute_energy Esq t N).converged = true) := by
  unfold compute_energy scfLoop
  by_cases hb :
      (scfLoopFrom (fun n => test_convergency (Esq n) (Esq (n - 1)) t)
        N 0 N).2 = true
  · simp [hb]
  · simp [Bool.eq_false_iff.mpr hb]

/-- Witness for C10 at a concrete input: energies `Esq n = n`, threshold
0, cap 1: the run fails, the energy is the sentinel 0 and nothing is
saved. -/
theorem compute_energy_save_iff_converged_witness :
    (compute_energy (fun n => (n : ℚ)) 0 1).energy = 0 ∧
    (compute_energy (fun n => (n : ℚ)) 0 1).saved = false :=
  (compute_energy_save_iff_converged (fun n => (n : ℚ)) 0 1).1
    (by norm_num [compute_energy, scfLoop, scfLoopFrom, test_convergency])

theorem diisPush_foldl (cap : Nat) (hcap : 1 ≤ cap) :
    ∀ (es acc : List DIISEntry), acc.length ≤ cap →
      es.foldl (diisPush cap) acc =
        (acc ++ es).drop (acc.length + es.length - cap) := by
  intro es
  induction es with
  | nil =>
      intro acc hacc
      simp [Nat.sub_eq_zero_of_le hacc]
  | cons e es2 ih =>
      intro acc hacc
      rw [List.foldl_cons]
      by_cases hlt : acc.length < cap
      · have hstep : diisPush cap acc e = acc ++ [e] := if_pos hlt
        have hl1 : (acc ++ [e]).length = acc.length + 1 := by
          simp
        rw [hstep, ih (acc ++ [e]) (by omega), List.append_assoc,
          List.singleton_append, hl1]
        congr 1
        simp only [List.length_cons]
        omega
      · have hlen : acc.length = cap := by omega
        have hstep : diisPush cap acc e = acc.drop 1 ++ [e] := if_neg hlt
        have hlen2 : (acc.drop 1 ++ [e]).length = cap := by
          simp only [List.length_append, List.length_drop,
            List.length_cons, List.length_nil]
          omega
        have h3 : (acc.drop 1 ++ [e]).length + es2.length - cap =
            es2.length := by omega
        have h4 : acc.length + (e :: es2).length - cap =
            1 + es2.length := by
          simp only [List.length_cons]
          omega
        have h5 : (acc ++ e :: es2).drop 1 = acc.drop 1 ++ e :: es2 :=
          List.drop_append_of_le_length (by omega)
        rw [hstep, ih (acc.drop 1 ++ [e]) (by omega), h3, h4,
          List.append_assoc, List.singleton_append, ← List.drop_drop, h5]

/-- C9 (spec-modelled): the DIIS history never holds more than `cap =
max_diis_vectors` entries, and after any sequence of appends the retained
history is exactly the most recent `cap` entries — the oldest entries are
the ones evicted (FIFO). -/
theorem diisHistory_bounded_fifo (cap : Nat) (hcap : 1 ≤ cap)
    (es : List DIISEntry) :
    (diisHistory cap es).length ≤ cap ∧
    diisHistory cap es = es.drop (es.length - cap) := by
  have h := diisPush_foldl cap hcap es [] (by simp)
  simp only [List.nil_append, List.length_nil, Nat.zero_add] at h
  unfold diisHistory
  rw [h]
  refine ⟨?_, rfl⟩
  rw [List.length_drop]
  omega

/-- Witness for C9 at a concrete input: capacity 1, two appended entries;
the history keeps only the newest entry. -/
theorem diisHistory_bounded_fifo_witness :
    1 ≤ 1 ∧
    ((diisHistory 1 [((zeroMat, zeroMat) : DIISEntry),
        ((zeroMat, zeroMat) : DIISEntry)]).length ≤ 1 ∧
    diisHistory 1 [((zeroMat, zeroMat) : DIISEntry),
        ((zeroMat, zeroMat) : DIISEntry)] =
      [((zeroMat, zeroMat) : DIISEntry),
        ((zeroMat, zeroMat) : DIISEntry)].drop
        ([((zeroMat, zeroMat) : DIISEntry),
          ((zeroMat, zeroMat) : DIISEntry)].length - 1)) :=
  ⟨Nat.le_refl 1,
   diisHistory_bounded_fifo 1 (Nat.le_refl 1)
     [((zeroMat, zeroMat) : DIISEntry), ((zeroMat, zeroMat) : DIISEntry)]⟩

theorem ioff_row_lt {p c : Nat} (hpc : p < c) : ioff p + p < ioff c := by
  have h1 : ioff (p + 1) ≤ ioff c := ioff_mono hpc
  have h2 : ioff (p + 1) = ioff p + (p + 1) := rfl
  omega

theorem blockPairOffset_mono (opi : Nat → Nat) {a b : Nat} (hab : a ≤ b) :
    blockPairOffset opi a ≤ blockPairOffset opi b := by
  induction hab with
  | refl => exact Nat.le_refl _
  | step _ ih => exact Nat.le_trans ih (Nat.le_add_right _ _)

theorem pairIdx_lt_block_end (opi : Nat → Nat) {h p q : Nat}
    (hp : p < opi h) (hq : q ≤ p) :
    pairIdx opi h p q < blockPairOffset opi (h + 1) := by
  have h1 : blockPairOffset opi (h + 1) =
      blockPairOffset opi h + ioff (opi h) := rfl
  have h2 := ioff_row_lt hp
  simp only [pairIdx]
  omega

theorem pairIdx_lt (opi : Nat → Nat) {nirreps h p q : Nat}
    (hh : h < nirreps) (hp : p < opi h) (hq : q ≤ p) :
    pairIdx opi h p q < blockPairOffset opi nirreps :=
  Nat.lt_of_lt_of_le (pairIdx_lt_block_end opi hp hq)
    (blockPairOffset_mono opi hh)

theorem packRow_out (Dh : Nat → Nat → ℚ) (p : Nat) :
    ∀ cnt (v : Nat → ℚ) (base m : Nat), (m < base ∨ base + cnt ≤ m) →
      packRow Dh p cnt v base m = v m := by
  intro cnt
  induction cnt with
  | zero => intro v base m _; rfl
  | succ qc ih =>
      intro v base m hm
      have hne : ¬ m = base + qc := by omega
      simp only [packRow, setAt, hne, if_false]
      exact ih v base m (by omega)

theorem packRow_in (Dh : Nat → Nat → ℚ) (p : Nat) :
    ∀ cnt (v : Nat → ℚ) (base q : Nat), q < cnt →
      packRow Dh p cnt v base (base + q) =
        (if ¬ p = q then 2 * Dh p q else Dh p q) := by
  intro cnt
  induction cnt with
  | zero => intro v base q hq; omega
  | succ qc ih =>
      intro v base q hq
      by_cases hqe : q = qc
      · subst hqe
        simp only [packRow, setAt]
        rw [if_true]
      · have hne : ¬ base + q = base + qc := by omega
        simp only [packRow, setAt, hne, if_false]
        exact ih v base q (by omega)

theorem packBlock_out (Dh : Nat → Nat → ℚ) :
    ∀ pcnt (v : Nat → ℚ) (base m : Nat),
      (m < base ∨ base + ioff pcnt ≤ m) →
      packBlock Dh pcnt v base m = v m := by
  intro pcnt
  induction pcnt with
  | zero => intro v base m _; rfl
  | succ pc ih =>
      intro v base m hm
      have hio : ioff (pc + 1) = ioff pc + (pc + 1) := rfl
      simp only [packBlock]
      rw [packRow_out Dh pc (pc + 1) _ (base + ioff pc) m (by omega)]
      exact ih v base m (by omega)

theorem packBlock_in (Dh : Nat → Nat → ℚ) :
    ∀ pcnt (v : Nat → ℚ) (base p q : Nat), p < pcnt → q ≤ p →
      packBlock Dh pcnt v base (base + ioff p + q) =
        (if ¬ p = q then 2 * Dh p q else Dh p q) := by
  intro pcnt
  induction pcnt with
  | zero => intro v base p q hp _; omega
  | succ pc ih =>
      intro v base p q hp hq
      simp only [packBlock]
      by_cases hpe : p = pc
      · subst hpe
        exact packRow_in Dh p (p + 1) _ (base + ioff p) q (by omega)
      · have hrow := ioff_row_lt (show p < pc by omega)
        rw [packRow_out Dh pc (pc + 1) _ (base + ioff pc) _ (by omega)]
        exact ih v base p q (by omega) hq

theorem packAll_in (D : Nat → Nat → Nat → ℚ) (opi : Nat → Nat) :
    ∀ hcnt (v : Nat → ℚ) (h p q : Nat), h < hcnt → p < opi h → q ≤ p →
      packAll D opi hcnt v (pairIdx opi h p q) =
        (if ¬ p = q then 2 * D h p q else D h p q) := by
  intro hcnt
  induction hcnt with
  | zero => intro v h p q hh _ _; omega
  | succ hc ih =>
      intro v h p q hh hp hq
      simp only [packAll]
      by_cases hhe : h = hc
      · subst hhe
        simp only [pairIdx]
        exact packBlock_in (D h) (opi h) _ (blockPairOffset opi h) p q hp hq
      · have hlt : pairIdx opi h p q < blockPairOffset opi hc :=
          Nat.lt_of_lt_of_le (pairIdx_lt_block_end opi hp hq)
            (blockPairOffset_mono opi (by omega))
        rw [packBlock_out (D hc) (opi hc) _ (blockPairOffset opi hc) _
          (Or.inl hlt)]
        exact ih v h p q (by omega) hp hq

theorem packVec_in (D : Nat → Nat → Nat → ℚ) (opi : Nat → Nat)
    (nirreps h p q : Nat) (hh : h < nirreps) (hp : p < opi h)
    (hq : q ≤ p) :
    packVec D opi nirreps (pairIdx opi h p q) =
      (if ¬ p = q then 2 * D h p q else D h p q) :=
  packAll_in D opi nirreps zeroF h p q hh hp hq

theorem sweepInner_gc (pk ka DcV DoV : Nat → ℚ) (pq : Nat) :
    ∀ rc (st : SweepSt) (m : Nat),
      (sweepInner pk ka DcV DoV pq rc st).gc m =
        st.gc m +
          (if m < rc then elemC pk DcV DoV (ioff pq + m) pq else 0) := by
  intro rc
  induction rc with
  | zero => intro st m; simp [sweepInner]
  | succ rc ih =>
      intro st m
      simp only [sweepInner, sweepStep, addAt]
      by_cases hm : m = rc
      · subst hm
        rw [if_pos rfl, ih st m, if_neg (by omega), if_pos (by omega)]
        simp only [elemC]
        ring
      · rw [if_neg hm, ih st m]
        by_cases hlt : m < rc
        · rw [if_pos hlt, if_pos (by omega)]
        · rw [if_neg hlt, if_neg (by omega)]

theorem sweepInner_go (pk ka DcV DoV : Nat → ℚ) (pq : Nat) :
    ∀ rc (st : SweepSt) (m : Nat),
      (sweepInner pk ka DcV DoV pq rc st).go m =
        st.go m +
          (if m < rc then elemO pk ka DcV DoV (ioff pq + m) pq else 0) := by
  intro rc
  induction rc with
  | zero => intro st m; simp [sweepInner]
  | succ rc ih =>
      intro st m
      simp only [sweepInner, sweepStep, addAt]
      by_cases hm : m = rc
      · subst hm
        rw [if_pos rfl, ih st m, if_neg (by omega), if_pos (by omega)]
        simp only [elemO]
        ring
      · rw [if_neg hm, ih st m]
        by_cases hlt : m < rc
        · rw [if_pos hlt, if_pos (by omega)]
        · rw [if_neg hlt, if_neg (by omega)]

theorem sweepInner_gcp (pk ka DcV DoV : Nat → ℚ) (pq : Nat) :
    ∀ rc (st : SweepSt),
      (sweepInner pk ka DcV DoV pq rc st).gcp =
        st.gcp +
          loopSum (fun s => elemC pk DcV DoV (ioff pq + s) s) 0 rc := by
  intro rc
  induction rc with
  | zero => intro st; simp [sweepInner, loopSum]
  | succ rc ih =>
      intro st
      simp only [sweepInner, sweepStep, loopSum, ih st, Nat.zero_add]
      simp only [elemC]
      ring

theorem sweepInner_gop (pk ka DcV DoV : Nat → ℚ) (pq : Nat) :
    ∀ rc (st : SweepSt),
      (sweepInner pk ka DcV DoV pq rc st).gop =
        st.gop +
          loopSum (fun s => elemO pk ka DcV DoV (ioff pq + s) s) 0 rc := by
  intro rc
  induction rc with
  | zero => intro st; simp [sweepInner, loopSum]
  | succ rc ih =>
      intro st
      simp only [sweepInner, sweepStep, loopSum, ih st, Nat.zero_add]
      simp only [elemO]
      ring

theorem sweepRow_gc (pk ka DcV DoV : Nat → ℚ) (pq : Nat)
    (G : (Nat → ℚ) × (Nat → ℚ)) (m : Nat) :
    (sweepRow pk ka DcV DoV pq G).1 m =
      G.1 m + (if m < pq then elemC pk DcV DoV (ioff pq + m) pq else 0)
      + (if m = pq then
          elemC pk DcV DoV (ioff pq + pq) pq +
            loopSum (fun s => elemC pk DcV DoV (ioff pq + s) s) 0 (pq + 1)
        else 0) := by
  simp only [sweepRow, addAt, sweepInner_gc, sweepInner_gcp]
  by_cases hm : m = pq
  · subst hm
    simp only [if_pos rfl, if_true, if_pos (show m < m + 1 by omega),
      if_neg (show ¬ m < m by omega)]
    ring
  · simp only [if_neg hm]
    by_cases hlt : m < pq
    · simp only [if_pos hlt, if_pos (show m < pq + 1 by omega)]
      ring
    · simp only [if_neg hlt, if_neg (show ¬ m < pq + 1 by omega)]
      ring

theorem sweepRow_go (pk ka DcV DoV : Nat → ℚ) (pq : Nat)
    (G : (Nat → ℚ) × (Nat → ℚ)) (m : Nat) :
    (sweepRow pk ka DcV DoV pq G).2 m =
      G.2 m + (if m < pq then elemO pk ka DcV DoV (ioff pq + m) pq else 0)
      + (if m = pq then
          elemO pk ka DcV DoV (ioff pq + pq) pq +
            loopSum (fun s => elemO pk ka DcV DoV (ioff pq + s) s) 0 (pq + 1)
        else 0) := by
  simp only [sweepRow, addAt, sweepInner_go, sweepInner_gop]
  by_cases hm : m = pq
  · subst hm
    simp only [if_pos rfl, if_true, if_pos (show m < m + 1 by omega),
      if_neg (show ¬ m < m by omega)]
    ring
  · simp only [if_neg hm]
    by_cases hlt : m < pq
    · simp only [if_pos hlt, if_pos (show m < pq + 1 by omega)]
      ring
    · simp only [if_neg hlt, if_neg (show ¬ m < pq + 1 by omega)]
      ring

theorem sweepAll_gc (pk ka DcV DoV : Nat → ℚ) :
    ∀ pc t,
      (sweepAll pk ka DcV DoV pc).1 t =
        if t < pc then
          loopSum (fun s => elemC pk DcV DoV (ioff t + s) s) 0 (t + 1)
          + elemC pk DcV DoV (ioff t + t) t
          + Finset.sum (Finset.Ico (t + 1) pc)
              (fun p => elemC pk DcV DoV (ioff p + t) p)
        else 0 := by
  intro pc
  induction pc with
  | zero => intro t; simp [sweepAll, zeroF]
  | succ pc ih =>
      intro t
      show (sweepRow pk ka DcV DoV pc (sweepAll pk ka DcV DoV pc)).1 t = _
      rw [sweepRow_gc, ih t]
      by_cases h1 : t < pc
      · simp only [if_pos h1, if_pos (show t < pc + 1 by omega),
          if_neg (show ¬ t = pc by omega),
          Finset.sum_Ico_succ_top (show t + 1 ≤ pc by omega)]
        ring
      · by_cases h2 : t = pc
        · subst h2
          simp only [if_neg (show ¬ t < t by omega), if_pos rfl, if_true,
            if_pos (show t < t + 1 by omega), Finset.Ico_self,
            Finset.sum_empty]
          ring
        · simp only [if_neg h1, if_neg h2,
            if_neg (show ¬ t < pc + 1 by omega)]
          ring

theorem sweepAll_go (pk ka DcV DoV : Nat → ℚ) :
    ∀ pc t,
      (sweepAll pk ka DcV DoV pc).2 t =
        if t < pc then
          loopSum (fun s => elemO pk ka DcV DoV (ioff t + s) s) 0 (t + 1)
          + elemO pk ka DcV DoV (ioff t + t) t
          + Finset.sum (Finset.Ico (t + 1) pc)
              (fun p => elemO pk ka DcV DoV (ioff p + t) p)
        else 0 := by
  intro pc
  induction pc with
  | zero => intro t; simp [sweepAll, zeroF]
  | succ pc ih =>
      intro t
      show (sweepRow pk ka DcV DoV pc (sweepAll pk ka DcV DoV pc)).2 t = _
      rw [sweepRow_go, ih t]
      by_cases h1 : t < pc
      · simp only [if_pos h1, if_pos (show t < pc + 1 by omega),
          if_neg (show ¬ t = pc by omega),
          Finset.sum_Ico_succ_top (show t + 1 ≤ pc by omega)]
        ring
      · by_cases h2 : t = pc
        · subst h2
          simp only [if_neg (show ¬ t < t by omega), if_pos rfl, if_true,
            if_pos (show t < t + 1 by omega), Finset.Ico_self,
            Finset.sum_empty]
          ring
        · simp only [if_neg h1, if_neg h2,
            if_neg (show ¬ t < pc + 1 by omega)]
          ring

theorem INDEX2_le {s t : Nat} (hst : s ≤ t) : INDEX2 t s = ioff t + s :=
  if_pos hst

theorem INDEX2_gt {s t : Nat} (hst : t < s) : INDEX2 t s = ioff s + t :=
  if_neg (by omega)

theorem sweepAll_gc_formula (pk ka DcV DoV : Nat → ℚ) (n t : Nat)
    (ht : t < n) :
    (sweepAll pk ka DcV DoV n).1 t =
      Finset.sum (Finset.range n)
        (fun s => pk (INDEX2 t s) * (DcV s + DoV s * (1/2)))
      + pk (INDEX2 t t) * (DcV t + DoV t * (1/2)) := by
  rw [sweepAll_gc, if_pos ht]
  have hsplit :
      Finset.sum (Finset.range n)
        (fun s => pk (INDEX2 t s) * (DcV s + DoV s * (1/2))) =
      Finset.sum (Finset.range (t + 1))
        (fun s => pk (INDEX2 t s) * (DcV s + DoV s * (1/2)))
      + Finset.sum (Finset.Ico (t + 1) n)
        (fun s => pk (INDEX2 t s) * (DcV s + DoV s * (1/2))) := by
    rw [Finset.range_eq_Ico,
      ← Finset.sum_Ico_consecutive _ (Nat.zero_le (t + 1))
        (show t + 1 ≤ n by omega),
      ← Finset.range_eq_Ico]
  have hA : loopSum (fun s => elemC pk DcV DoV (ioff t + s) s) 0 (t + 1) =
      Finset.sum (Finset.range (t + 1))
        (fun s => pk (INDEX2 t s) * (DcV s + DoV s * (1/2))) := by
    rw [loopSum_eq_sum]
    simp only [Nat.zero_add]
    rw [← Finset.range_eq_Ico]
    apply Finset.sum_congr rfl
    intro s hs
    have hst : s ≤ t := by
      have := Finset.mem_range.mp hs
      omega
    rw [INDEX2_le hst]
    simp only [elemC]
    ring
  have hB : Finset.sum (Finset.Ico (t + 1) n)
        (fun p => elemC pk DcV DoV (ioff p + t) p) =
      Finset.sum (Finset.Ico (t + 1) n)
        (fun s => pk (INDEX2 t s) * (DcV s + DoV s * (1/2))) := by
    apply Finset.sum_congr rfl
    intro p hp
    have htp : t < p := by
      have := Finset.mem_Ico.mp hp
      omega
    rw [INDEX2_gt htp]
    simp only [elemC]
    ring
  have hD : elemC pk DcV DoV (ioff t + t) t =
      pk (INDEX2 t t) * (DcV t + DoV t * (1/2)) := by
    rw [INDEX2_le (Nat.le_refl t)]
    simp only [elemC]
    ring
  rw [hsplit, hA, hB, hD]
  ring

theorem sweepAll_go_formula (pk ka DcV DoV : Nat → ℚ) (n t : Nat)
    (ht : t < n) :
    (sweepAll pk ka DcV DoV n).2 t =
      Finset.sum (Finset.range n)
        (fun s => pk (INDEX2 t s) * DcV s * (1/2) +
          (pk (INDEX2 t s) + ka (INDEX2 t s)) * DoV s * (1/4))
      + (pk (INDEX2 t t) * DcV t * (1/2) +
          (pk (INDEX2 t t) + ka (INDEX2 t t)) * DoV t * (1/4)) := by
  rw [sweepAll_go, if_pos ht]
  have hsplit :
      Finset.sum (Finset.range n)
        (fun s => pk (INDEX2 t s) * DcV s * (1/2) +
          (pk (INDEX2 t s) + ka (INDEX2 t s)) * DoV s * (1/4)) =
      Finset.sum (Finset.range (t + 1))
        (fun s => pk (INDEX2 t s) * DcV s * (1/2) +
          (pk (INDEX2 t s) + ka (INDEX2 t s)) * DoV s * (1/4))
      + Finset.sum (Finset.Ico (t + 1) n)
        (fun s => pk (INDEX2 t s) * DcV s * (1/2) +
          (pk (INDEX2 t s) + ka (INDEX2 t s)) * DoV s * (1/4)) := by
    rw [Finset.range_eq_Ico,
      ← Finset.sum_Ico_consecutive _ (Nat.zero_le (t + 1))
        (show t + 1 ≤ n by omega),
      ← Finset.range_eq_Ico]
  have hA : loopSum (fun s => elemO pk ka DcV DoV (ioff t + s) s) 0
        (t + 1) =
      Finset.sum (Finset.range (t + 1))
        (fun s => pk (INDEX2 t s) * DcV s * (1/2) +
          (pk (INDEX2 t s) + ka (INDEX2 t s)) * DoV s * (1/4)) := by
    rw [loopSum_eq_sum]
    simp only [Nat.zero_add]
    rw [← Finset.range_eq_Ico]
    apply Finset.sum_congr rfl
    intro s hs
    have hst : s ≤ t := by
      have := Finset.mem_range.mp hs
      omega
    rw [INDEX2_le hst]
    simp only [elemO]
  have hB : Finset.sum (Finset.Ico (t + 1) n)
        (fun p => elemO pk ka DcV DoV (ioff p + t) p) =
      Finset.sum (Finset.Ico (t + 1) n)
        (fun s => pk (INDEX2 t s) * DcV s * (1/2) +
          (pk (INDEX2 t s) + ka (INDEX2 t s)) * DoV s * (1/4)) := by
    apply Finset.sum_congr rfl
    intro p hp
    have htp : t < p := by
      have := Finset.mem_Ico.mp hp
      omega
    rw [INDEX2_gt htp]
    simp only [elemO]
  have hD : elemO pk ka DcV DoV (ioff t + t) t =
      pk (INDEX2 t t) * DcV t * (1/2) +
        (pk (INDEX2 t t) + ka (INDEX2 t t)) * DoV t * (1/4) := by
    rw [INDEX2_le (Nat.le_refl t)]
    simp only [elemO]
  rw [hsplit, hA, hB, hD]
  ring

theorem unpackRow_preserve (v : Nat → ℚ) (p : Nat) :
    ∀ cnt (M : Nat → Nat → ℚ) (base a b : Nat), ¬ a = p → ¬ b = p →
      unpackRow v p cnt M base a b = M a b := by
  intro cnt
  induction cnt with
  | zero => intro M base a b _ _; rfl
  | succ qc ih =>
      intro M base a b ha hb
      simp only [unpackRow, setSym]
      rw [if_neg (fun hcon => ha hcon.1), if_neg (fun hcon => hb hcon.2)]
      exact ih M base a b ha hb

theorem unpackRow_val (v : Nat → ℚ) (p : Nat) :
    ∀ cnt (M : Nat → Nat → ℚ) (base q : Nat), q < cnt →
      (unpackRow v p cnt M base p q = 2 * v (base + q) ∧
        unpackRow v p cnt M base q p = 2 * v (base + q)) := by
  intro cnt
  induction cnt with
  | zero => intro M base q hq; omega
  | succ qc ih =>
      intro M base q hq
      by_cases hqe : q = qc
      · subst hqe
        constructor
        · simp only [unpackRow, setSym]
          split_ifs with h1 h2
          · rfl
          · rfl
          · simp at h1
        · simp only [unpackRow, setSym]
          split_ifs with h1 h2
          · rfl
          · rfl
          · simp at h2
      · constructor
        · simp only [unpackRow, setSym]
          rw [if_neg (fun hcon => hqe hcon.2),
            if_neg (fun hcon => hqe (hcon.2.trans hcon.1))]
          exact (ih M base q (by omega)).1
        · simp only [unpackRow, setSym]
          rw [if_neg (fun hcon => hqe (hcon.1.trans hcon.2)),
            if_neg (fun hcon => hqe hcon.1)]
          exact (ih M base q (by omega)).2

theorem unpackBlock_in (v : Nat → ℚ) :
    ∀ pcnt (M : Nat → Nat → ℚ) (base p q : Nat), p < pcnt → q ≤ p →
      (unpackBlock v pcnt M base p q = 2 * v (base + ioff p + q) ∧
        unpackBlock v pcnt M base q p = 2 * v (base + ioff p + q)) := by
  intro pcnt
  induction pcnt with
  | zero => intro M base p q hp _; omega
  | succ pc ih =>
      intro M base p q hp hq
      simp only [unpackBlock]
      by_cases hpe : p = pc
      · subst hpe
        exact unpackRow_val v p (p + 1) _ (base + ioff p) q (by omega)
      · have hplt : p < pc := by omega
        constructor
        · rw [unpackRow_preserve v pc (pc + 1) _ (base + ioff pc) p q
            (by omega) (by omega)]
          exact (ih M base p q hplt hq).1
        · rw [unpackRow_preserve v pc (pc + 1) _ (base + ioff pc) q p
            (by omega) (by omega)]
          exact (ih M base p q hplt hq).2

theorem unpackMat_in (v : Nat → ℚ) (opi : Nat → Nat)
    (nirreps h p q : Nat) (hh : h < nirreps) (hp : p < opi h)
    (hq : q ≤ p) :
    unpackMat v opi nirreps h p q = 2 * v (pairIdx opi h p q) ∧
    unpackMat v opi nirreps h q p = 2 * v (pairIdx opi h p q) := by
  simp only [unpackMat, if_pos hh, pairIdx]
  exact unpackBlock_in v (opi h) zeroMat (blockPairOffset opi h) p q hp hq

/-- C5: `form_G_from_PK` packs `Dc`/`Do` into lower-triangle pair vectors
with off-diagonal pair entries doubled and diagonal entries unchanged;
its single triangular sweep over `rs ≤ pq` with symmetric accumulation
into both the `pq` and `rs` accumulators gives every packed accumulator
entry `t` the closed form
`Gc[t] = Σ_s PK[t,s]·(DcV[s] + DoV[s]/2) + PK[t,t]·(DcV[t] + DoV[t]/2)`
and
`Go[t] = Σ_s (PK[t,s]·DcV[s]/2 + (PK+K)[t,s]·DoV[s]/4)` plus the matching
diagonal term (the doubled diagonal contribution is the symmetric-storage
convention that `form_PK`'s final diagonal halving compensates); and the
results are unpacked into the symmetry-blocked `Gc`, `Go` with an extra
factor of 2, symmetrically in `(p,q)`. -/
theorem form_G_from_PK_spec (pk ka : Nat → ℚ)
    (Dc Do : Nat → Nat → Nat → ℚ) (opi : Nat → Nat)
    (nirreps h p q : Nat) (hh : h < nirreps) (hp : p < opi h)
    (hq : q ≤ p) :
    packVec Dc opi nirreps (pairIdx opi h p q) =
      (if ¬ p = q then 2 * Dc h p q else Dc h p q) ∧
    packVec Do opi nirreps (pairIdx opi h p q) =
      (if ¬ p = q then 2 * Do h p q else Do h p q) ∧
    (sweepAll pk ka (packVec Dc opi nirreps) (packVec Do opi nirreps)
        (blockPairOffset opi nirreps)).1 (pairIdx opi h p q) =
      Finset.sum (Finset.range (blockPairOffset opi nirreps)) (fun s =>
        pk (INDEX2 (pairIdx opi h p q) s) *
          (packVec Dc opi nirreps s + packVec Do opi nirreps s * (1/2)))
      + pk (INDEX2 (pairIdx opi h p q) (pairIdx opi h p q)) *
          (packVec Dc opi nirreps (pairIdx opi h p q) +
            packVec Do opi nirreps (pairIdx opi h p q) * (1/2)) ∧
    (sweepAll pk ka (packVec Dc opi nirreps) (packVec Do opi nirreps)
        (blockPairOffset opi nirreps)).2 (pairIdx opi h p q) =
      Finset.sum (Finset.range (blockPairOffset opi nirreps)) (fun s =>
        pk (INDEX2 (pairIdx opi h p q) s) *
          packVec Dc opi nirreps s * (1/2)
        + (pk (INDEX2 (pairIdx opi h p q) s) +
            ka (INDEX2 (pairIdx opi h p q) s)) *
          packVec Do opi nirreps s * (1/4))
      + (pk (INDEX2 (pairIdx opi h p q) (pairIdx opi h p q)) *
          packVec Dc opi nirreps (pairIdx opi h p q) * (1/2)
        + (pk (INDEX2 (pairIdx opi h p q) (pairIdx opi h p q)) +
            ka (INDEX2 (pairIdx opi h p q) (pairIdx opi h p q))) *
          packVec Do opi nirreps (pairIdx opi h p q) * (1/4)) ∧
    (form_G_from_PK pk ka Dc Do opi nirreps).1 h p q =
      2 * (sweepAll pk ka (packVec Dc opi nirreps)
        (packVec Do opi nirreps) (blockPairOffset opi nirreps)).1
        (pairIdx opi h p q) ∧
    (form_G_from_PK pk ka Dc Do opi nirreps).1 h q p =
      2 * (sweepAll pk ka (packVec Dc opi nirreps)
        (packVec Do opi nirreps) (blockPairOffset opi nirreps)).1
        (pairIdx opi h p q) ∧
    (form_G_from_PK pk ka Dc Do opi nirreps).2 h p q =
      2 * (sweepAll pk ka (packVec Dc opi nirreps)
        (packVec Do opi nirreps) (blockPairOffset opi nirreps)).2
        (pairIdx opi h p q) ∧
    (form_G_from_PK pk ka Dc Do opi nirreps).2 h q p =
      2 * (sweepAll pk ka (packVec Dc opi nirreps)
        (packVec Do opi nirreps) (blockPairOffset opi nirreps)).2
        (pairIdx opi h p q) := by
  have ht := pairIdx_lt opi hh hp hq
  refine ⟨packVec_in Dc opi nirreps h p q hh hp hq,
    packVec_in Do opi nirreps h p q hh hp hq,
    sweepAll_gc_formula pk ka (packVec Dc opi nirreps)
      (packVec Do opi nirreps) (blockPairOffset opi nirreps)
      (pairIdx opi h p q) ht,
    sweepAll_go_formula pk ka (packVec Dc opi nirreps)
      (packVec Do opi nirreps) (blockPairOffset opi nirreps)
      (pairIdx opi h p q) ht,
    ?_, ?_, ?_, ?_⟩
  · exact (unpackMat_in _ opi nirreps h p q hh hp hq).1
  · exact (unpackMat_in _ opi nirreps h p q hh hp hq).2
  · exact (unpackMat_in _ opi nirreps h p q hh hp hq).1
  · exact (unpackMat_in _ opi nirreps h p q hh hp hq).2


/-- Witness for C5 at a concrete input: one irrep of dimension 1,
constant densities `Dc = 3`, `Do = 5` and supermatrices `PK = 7`,
`K = 11`, evaluated at the single pair `(h,p,q) = (0,0,0)`. -/
theorem form_G_from_PK_spec_witness :
    ((0 : Nat) < 1 ∧ (0 : Nat) < (fun _ : Nat => 1) 0 ∧ (0 : Nat) ≤ 0) ∧
    (packVec (fun _ _ _ => (3 : ℚ)) (fun _ : Nat => 1) 1 (pairIdx (fun _ : Nat => 1) 0 0 0) =
      (if ¬ 0 = 0 then 2 * (fun _ _ _ => (3 : ℚ)) 0 0 0 else (fun _ _ _ => (3 : ℚ)) 0 0 0) ∧
    packVec (fun _ _ _ => (5 : ℚ)) (fun _ : Nat => 1) 1 (pairIdx (fun _ : Nat => 1) 0 0 0) =
      (if ¬ 0 = 0 then 2 * (fun _ _ _ => (5 : ℚ)) 0 0 0 else (fun _ _ _ => (5 : ℚ)) 0 0 0) ∧
    (sweepAll (fun _ => (7 : ℚ)) (fun _ => (11 : ℚ)) (packVec (fun _ _ _ => (3 : ℚ)) (fun _ : Nat => 1) 1) (packVec (fun _ _ _ => (5 : ℚ)) (fun _ : Nat => 1) 1)
        (blockPairOffset (fun _ : Nat => 1) 1)).1 (pairIdx (fun _ : Nat => 1) 0 0 0) =
      Finset.sum (Finset.range (blockPairOffset (fun _ : Nat => 1) 1)) (fun s =>
        (fun _ => (7 : ℚ)) (INDEX2 (pairIdx (fun _ : Nat => 1) 0 0 0) s) *
          (packVec (fun _ _ _ => (3 : ℚ)) (fun _ : Nat => 1) 1 s + packVec (fun _ _ _ => (5 : ℚ)) (fun _ : Nat => 1) 1 s * (1/2)))
      + (fun _ => (7 : ℚ)) (INDEX2 (pairIdx (fun _ : Nat => 1) 0 0 0) (pairIdx (fun _ : Nat => 1) 0 0 0)) *
          (packVec (fun _ _ _ => (3 : ℚ)) (fun _ : Nat => 1) 1 (pairIdx (fun _ : Nat => 1) 0 0 0) +
            packVec (fun _ _ _ => (5 : ℚ)) (fun _ : Nat => 1) 1 (pairIdx (fun _ : Nat => 1) 0 0 0) * (1/2)) ∧
    (sweepAll (fun _ => (7 : ℚ)) (fun _ => (11 : ℚ)) (packVec (fun _ _ _ => (3 : ℚ)) (fun _ : Nat => 1) 1) (packVec (fun _ _ _ => (5 : ℚ)) (fun _ : Nat => 1) 1)
        (blockPairOffset (fun _ : Nat => 1) 1)).2 (pairIdx (fun _ : Nat => 1) 0 0 0) =
      Finset.sum (Finset.range (blockPairOffset (fun _ : Nat => 1) 1)) (fun s =>
        (fun _ => (7 : ℚ)) (INDEX2 (pairIdx (fun _ : Nat => 1) 0 0 0) s) *
          packVec (fun _ _ _ => (3 : ℚ)) (fun _ : Nat => 1) 1 s * (1/2)
        + ((fun _ => (7 : ℚ)) (INDEX2 (pairIdx (fun _ : Nat => 1) 0 0 0) s) +
            (fun _ => (11 : ℚ)) (INDEX2 (pairIdx (fun _ : Nat => 1) 0 0 0) s)) *
          packVec (fun _ _ _ => (5 : ℚ)) (fun _ : Nat => 1) 1 s * (1/4))
      + ((fun _ => (7 : ℚ)) (INDEX2 (pairIdx (fun _ : Nat => 1) 0 0 0) (pairIdx (fun _ : Nat => 1) 0 0 0)) *
          packVec (fun _ _ _ => (3 : ℚ)) (fun _ : Nat => 1) 1 (pairIdx (fun _ : Nat => 1) 0 0 0) * (1/2)
        + ((fun _ => (7 : ℚ)) (INDEX2 (pairIdx (fun _ : Nat => 1) 0 0 0) (pairIdx (fun _ : Nat => 1) 0 0 0)) +
            (fun _ => (11 : ℚ)) (INDEX2 (pairIdx (fun _ : Nat => 1) 0 0 0) (pairIdx (fun _ : Nat => 1) 0 0 0))) *
          packVec (fun _ _ _ => (5 : ℚ)) (fun _ : Nat => 1) 1 (pairIdx (fun _ : Nat => 1) 0 0 0) * (1/4)) ∧
    (form_G_from_PK (fun _ => (7 : ℚ)) (fun _ => (11 : ℚ)) (fun _ _ _ => (3 : ℚ)) (fun _ _ _ => (5 : ℚ)) (fun _ : Nat => 1) 1).1 0 0 0 =
      2 * (sweepAll (fun _ => (7 : ℚ)) (fun _ => (11 : ℚ)) (packVec (fun _ _ _ => (3 : ℚ)) (fun _ : Nat => 1) 1)
        (packVec (fun _ _ _ => (5 : ℚ)) (fun _ : Nat => 1) 1) (blockPairOffset (fun _ : Nat => 1) 1)).1
        (pairIdx (fun _ : Nat => 1) 0 0 0) ∧
    (form_G_from_PK (fun _ => (7 : ℚ)) (fun _ => (11 : ℚ)) (fun _ _ _ => (3 : ℚ)) (fun _ _ _ => (5 : ℚ)) (fun _ : Nat => 1) 1).1 0 0 0 =
      2 * (sweepAll (fun _ => (7 : ℚ)) (fun _ => (11 : ℚ)) (packVec (fun _ _ _ => (3 : ℚ)) (fun _ : Nat => 1) 1)
        (packVec (fun _ _ _ => (5 : ℚ)) (fun _ : Nat => 1) 1) (blockPairOffset (fun _ : Nat => 1) 1)).1
        (pairIdx (fun _ : Nat => 1) 0 0 0) ∧
    (form_G_from_PK (fun _ => (7 : ℚ)) (fun _ => (11 : ℚ)) (fun _ _ _ => (3 : ℚ)) (fun _ _ _ => (5 : ℚ)) (fun _ : Nat => 1) 1).2 0 0 0 =
      2 * (sweepAll (fun _ => (7 : ℚ)) (fun _ => (11 : ℚ)) (packVec (fun _ _ _ => (3 : ℚ)) (fun _ : Nat => 1) 1)
        (packVec (fun _ _ _ => (5 : ℚ)) (fun _ : Nat => 1) 1) (blockPairOffset (fun _ : Nat => 1) 1)).2
        (pairIdx (fun _ : Nat => 1) 0 0 0) ∧
    (form_G_from_PK (fun _ => (7 : ℚ)) (fun _ => (11 : ℚ)) (fun _ _ _ => (3 : ℚ)) (fun _ _ _ => (5 : ℚ)) (fun _ : Nat => 1) 1).2 0 0 0 =
      2 * (sweepAll (fun _ => (7 : ℚ)) (fun _ => (11 : ℚ)) (packVec (fun _ _ _ => (3 : ℚ)) (fun _ : Nat => 1) 1)
        (packVec (fun _ _ _ => (5 : ℚ)) (fun _ : Nat => 1) 1) (blockPairOffset (fun _ : Nat => 1) 1)).2
        (pairIdx (fun _ : Nat => 1) 0 0 0)) :=
  ⟨⟨by decide, by decide, by decide⟩,
   form_G_from_PK_spec (fun _ => (7 : ℚ)) (fun _ => (11 : ℚ))
     (fun _ _ _ => (3 : ℚ)) (fun _ _ _ => (5 : ℚ)) (fun _ : Nat => 1)
     1 0 0 0 (by decide) (by decide) (by decide)⟩

end scf
